import Mathlib

/-!
# Verification of the tailwind-prefixer rewrite engine

Shallow embedding of `src/plugin.ts` (unplugin-tailwind-prefixer).
JavaScript strings are modelled as `List Char`; the variant splitter's
character loop is modelled as a left fold over an explicit state record,
mirroring the loop state (`buf`, `depth`, `quote`, and the `token[i-1]`
look-back) of `splitVariants`.
-/

namespace TWP

/-- Loop state of `splitVariants` (src/plugin.ts lines 50-95):
`prev` is the previously consumed character (`token[i-1]`), `buf` the
current segment buffer, `depth` the square-bracket depth, `quote` the
open quote character (if any), and `parts` the segments pushed so far. -/
structure SvState where
  prev : Option Char
  buf : List Char
  depth : Nat
  quote : Option Char
  parts : List (List Char)
  deriving Repr

/-- Control-state update of one `splitVariants` loop iteration, for the
non-splitting branches: returns the new `(depth, quote)`.  Inside a quote
(`quote = some qc`), a matching quote character not preceded by a backslash
closes the quote (lines 59-65).  Otherwise a quote character opens a quote
(lines 67-71), `[` increments the depth (lines 73-77) and `]` decrements it;
`Math.max(0, depth - 1)` (line 79) is truncated `Nat` subtraction. -/
def ctlStep (d : Nat) (q : Option Char) (pv : Option Char) (c : Char) : Nat × Option Char :=
  match q with
  | some qc => if c = qc ∧ pv ≠ some '\\' then (d, none) else (d, some qc)
  | none =>
    if c = '\'' ∨ c = '"' then (d, some c)
    else if c = '[' then (d + 1, none)
    else if c = ']' then (d - 1, none)
    else (d, none)

/-- One iteration of the `splitVariants` loop (lines 56-91).  A `:` at
bracket depth 0 outside any quote pushes the buffer and resets it
(lines 84-88); every other character is appended to the buffer with the
control state updated by `ctlStep`.  The branch order is equivalent to the
source's because the splitting branch is unreachable when a quote is open
and a `:` is neither a quote character nor a bracket. -/
def svStep (s : SvState) (c : Char) : SvState :=
  if s.quote = none ∧ c = ':' ∧ s.depth = 0 then
    ⟨some c, [], s.depth, none, s.parts ++ [s.buf]⟩
  else
    let dq := ctlStep s.depth s.quote s.prev c
    ⟨some c, s.buf ++ [c], dq.1, dq.2, s.parts⟩

/-- Running the `splitVariants` loop over a list of characters. -/
def svRun (s : SvState) (cs : List Char) : SvState :=
  cs.foldl svStep s

/-- Initial loop state of `splitVariants` (lines 51-54). -/
def initState : SvState := ⟨none, [], 0, none, []⟩

/-- Final segment collection of `splitVariants`: the pushed parts plus the
trailing buffer if it is non-empty (`if (buf) parts.push(buf)`, line 92). -/
def emit (s : SvState) : List (List Char) :=
  s.parts ++ if s.buf = [] then [] else [s.buf]

/-- `splitVariants` (src/plugin.ts lines 50-95): split on `:` characters
occurring outside square brackets and outside quotes. -/
def splitVariantsL (cs : List Char) : List (List Char) :=
  emit (svRun initState cs)

/-- `[...xs].join(":")` on segment lists. -/
def joinColon : List (List Char) → List Char
  | [] => []
  | [x] => x
  | x :: xs => x ++ ':' :: joinColon xs

/-- `s.startsWith(p)` on JavaScript strings. -/
def startsWithL : List Char → List Char → Bool
  | _, [] => true
  | [], _ :: _ => false
  | c :: s, d :: p => c == d && startsWithL s p

/-- The fixed utility-root vocabulary `TW_ROOTS` (src/plugin.ts lines 101-225). -/
def TW_ROOTS : List String := [
  -- layout/display/position
  "container", "sr-only", "not-sr-only", "static", "fixed", "absolute", "relative",
  "sticky", "block", "inline", "inline-block", "inline-flex", "flex", "grid", "table",
  "contents", "hidden",
  -- spacing/sizing
  "m", "mx", "my", "mt", "mr", "mb", "ml", "p", "px", "py", "pt", "pr", "pb", "pl",
  "space-x", "space-y", "w", "h", "min-w", "min-h", "max-w", "max-h", "size", "inset",
  "top", "right", "bottom", "left",
  -- typography
  "font", "text", "antialiased", "subpixel-antialiased", "tracking", "leading", "list",
  "placeholder",
  -- backgrounds/borders/effects
  "bg", "from", "via", "to", "border", "rounded", "shadow", "ring", "outline",
  "opacity", "decoration",
  -- flex/grid
  "flex-grow", "grow", "flex-shrink", "shrink", "basis", "order", "grid-cols",
  "grid-rows", "col", "row", "gap", "place", "items", "justify", "content", "self",
  "auto-cols", "auto-rows",
  -- transforms/transitions
  "transform", "scale", "rotate", "translate", "skew", "origin", "transition",
  "duration", "ease", "delay",
  -- interactivity/state
  "cursor", "select", "resize", "scroll", "snap", "touch", "pointer-events",
  "accent", "appearance",
  -- svg/filters/tables/etc
  "fill", "stroke", "stroke-w", "filter", "backdrop",
  -- misc common utilities
  "z", "overflow", "object", "align", "whitespace", "break", "isolate", "isolation"]

/-- `TW_ROOTS.has(x)` membership test. -/
def twRootsHas (cs : List Char) : Bool :=
  TW_ROOTS.any (fun r => r.data == cs)

/-- The `/[A-Z]/` test of the classifier (line 229). -/
def hasUpper (cs : List Char) : Bool :=
  cs.any (fun c => decide ('A' ≤ c) && decide (c ≤ 'Z'))

/-- `/^[a-z-]+$/.test(core)` (line 247). -/
def lowerDash (cs : List Char) : Bool :=
  decide (cs ≠ []) && cs.all (fun c => (decide ('a' ≤ c) && decide (c ≤ 'z')) || c == '-')

/-- `isLikelyTailwindToken` (src/plugin.ts lines 227-250): reject empty or
uppercase-containing tokens; otherwise take the last variant segment as the
utility core (`!core` is falsy both for a missing and for an empty last
segment, hence the `getD []`), and accept when the core or its first
hyphen-delimited component (`core.split("-")[0]`) is a known root.  The
`startsWith("{")` block at lines 233-235 has an empty body and is omitted;
the final `/^[a-z-]+$/` branch (line 247) is kept although it is subsumed. -/
def isLikelyTailwindToken (token : List Char) : Bool :=
  if token = [] ∨ hasUpper token then false
  else
    let segments := splitVariantsL token
    let core := segments.getLast?.getD []
    if core = [] then false
    else if twRootsHas core || twRootsHas (core.takeWhile (fun c => c ≠ '-')) then true
    else if lowerDash core && twRootsHas core then true
    else false

/-- The important-marker handling of `prefixOneToken` (lines 256-260):
`token.startsWith("!")` strips the marker (`token.slice(1)`) and remembers
it; returns the marker part and the remaining token. -/
def stripImportant (token : List Char) : List Char × List Char :=
  if token.head? = some '!' then (['!'], token.tail) else ([], token)

/-- The body of `prefixOneToken` after marker stripping (lines 262-271):
the last variant segment is prefixed unless it already starts with the
prefix (`segments.pop() ?? ""` is `getLast?.getD []`, the remaining
`segments` is `dropLast`), and the segments are rejoined with `:`. -/
def prefixCore (tok : List Char) (pre : List Char) : List Char :=
  let segments := splitVariantsL tok
  let lastSeg := segments.getLast?.getD []
  let segs := segments.dropLast
  if startsWithL lastSeg pre then joinColon (segs ++ [lastSeg])
  else joinColon (segs ++ [pre ++ lastSeg])

/-- `prefixOneToken` (src/plugin.ts lines 252-272): empty prefix returns
the token unchanged; otherwise a leading `!` is stripped and reattached in
front of the prefixed body. -/
def prefixOneToken (token : List Char) (pre : List Char) : List Char :=
  if pre = [] then token
  else (stripImportant token).1 ++ prefixCore (stripImportant token).2 pre

/-- Whitespace class of the `/\s+/` split in `transformClassesInString`
(plugin.ts line 279).  ECMAScript `\s` matches the ASCII whitespace
characters (TAB, LF, VT, FF, CR, SPACE), NO-BREAK SPACE U+00A0, the
Unicode `Space_Separator` category (U+1680, U+2000-U+200A, U+202F,
U+205F, U+3000), the line separators U+2028/U+2029, and the byte-order
mark U+FEFF. -/
def isWsChar (c : Char) : Bool :=
  let n := c.toNat
  n == 0x09 || n == 0x0A || n == 0x0B || n == 0x0C || n == 0x0D || n == 0x20 ||
  n == 0xA0 || n == 0x1680 || (decide (0x2000 ≤ n) && decide (n ≤ 0x200A)) ||
  n == 0x2028 || n == 0x2029 || n == 0x202F || n == 0x205F ||
  n == 0x3000 || n == 0xFEFF

/-- Tokenization of `input.split(/\s+/g)` combined with the loop's
`if (!tok) continue` (lines 279-282): the non-empty maximal runs of
non-whitespace characters, in order. -/
def wsTokensAux (buf : List Char) : List Char → List (List Char)
  | [] => if buf = [] then [] else [buf]
  | c :: cs =>
    if isWsChar c then
      (if buf = [] then wsTokensAux [] cs else buf :: wsTokensAux [] cs)
    else wsTokensAux (buf ++ [c]) cs

/-- Whitespace tokens of a class-bearing string. -/
def wsTokens (cs : List Char) : List (List Char) :=
  wsTokensAux [] cs

/-- `out.join(" ")` (line 286). -/
def joinSpace : List (List Char) → List Char
  | [] => []
  | [x] => x
  | x :: xs => x ++ ' ' :: joinSpace xs

/-- Per-token step of `transformClassesInString` (lines 283-284): classify
with the override if supplied (`isTw ?? isLikelyTailwindToken`), then
conditionally prefix. -/
def rewriteToken (pre : List Char) (isTw : Option (List Char → Bool)) (tok : List Char) :
    List Char :=
  if (isTw.getD isLikelyTailwindToken) tok then prefixOneToken tok pre else tok

/-- `transformClassesInString` (src/plugin.ts lines 274-287). -/
def transformClassesInString (input : List Char) (pre : List Char)
    (isTw : Option (List Char → Bool)) : List Char :=
  joinSpace ((wsTokens input).map (rewriteToken pre isTw))

/-- Logical operators of a Babel `LogicalExpression` (`&&`, `||`, `??`). -/
inductive LogicalOp where
  | and | or | nullish
  deriving Repr, DecidableEq

/-- The expression shapes the JSXAttribute visitor distinguishes
(src/plugin.ts lines 328-410).  `tplLit` keeps the cooked quasi texts and
the interpolated expressions; all shapes the visitor never inspects are
kept structurally (`objE`, `arrE`, `spreadE`, `identE`) or opaquely
(`otherE`). -/
inductive Expr where
  | strLit : List Char → Expr
  | tplLit : List (List Char) → List Expr → Expr
  | logicE : LogicalOp → Expr → Expr → Expr
  | callE : List Char → List Expr → Expr
  | objE : List Expr → Expr
  | arrE : List Expr → Expr
  | spreadE : Expr → Expr
  | identE : List Char → Expr
  | otherE : Nat → Expr
  deriving Repr

/-- A JSX attribute value: absent, a plain string literal, an expression
container, or an element/fragment value (never inspected by the visitor). -/
inductive AttrVal where
  | vNone : AttrVal
  | vStr : List Char → AttrVal
  | vExpr : Expr → AttrVal
  | vElem : Nat → AttrVal
  deriving Repr

/-- `transformTemplateLiteralIfStatic` (src/plugin.ts lines 295-304):
`null` for a template with interpolations; otherwise the rewritten
concatenation of the quasi texts (the source wraps it in
`t.stringLiteral`, modelled by the callers). -/
def transformTemplateLiteralIfStatic (quasis : List (List Char)) (exprs : List Expr)
    (pre : List Char) (isTw : Option (List Char → Bool)) : Option (List Char) :=
  match exprs with
  | _ :: _ => none
  | [] => some (transformClassesInString (quasis.flatten) pre isTw)

/-- Per-argument action of the `clsx`/`classnames` call branch
(src/plugin.ts lines 343-382): a string literal argument is rewritten in
place; a template-literal argument is replaced by a string literal when
static; a logical expression has the same two rules applied to its right
operand only; every other shape is skipped. -/
def transformArg (pre : List Char) (isTw : Option (List Char → Bool)) : Expr → Expr
  | .strLit s => .strLit (transformClassesInString s pre isTw)
  | .tplLit qs es =>
    match transformTemplateLiteralIfStatic qs es pre isTw with
    | some v => .strLit v
    | none => .tplLit qs es
  | .logicE op l r =>
    match r with
    | .strLit s => .logicE op l (.strLit (transformClassesInString s pre isTw))
    | .tplLit qs es =>
      match transformTemplateLiteralIfStatic qs es pre isTw with
      | some v => .logicE op l (.strLit v)
      | none => .logicE op l (.tplLit qs es)
    | r' => .logicE op l r'
  | e => e

/-- The JSXAttribute visitor body for an attribute whose name is in the
target set (src/plugin.ts lines 329-410): a `clsx`/`classnames` call in an
expression container has its arguments rewritten; a string literal value is
rewritten in place; a static template-literal container is replaced by a
plain string value (`path.node.value = replaced`); everything else is left
untouched. -/
def transformAttrValue (pre : List Char) (isTw : Option (List Char → Bool)) :
    AttrVal → AttrVal
  | .vStr s => .vStr (transformClassesInString s pre isTw)
  | .vExpr e =>
    match e with
    | .callE callee args =>
      if callee = "clsx".data ∨ callee = "classnames".data then
        .vExpr (.callE callee (args.map (transformArg pre isTw)))
      else .vExpr (.callE callee args)
    | .tplLit qs es =>
      match transformTemplateLiteralIfStatic qs es pre isTw with
      | some v => .vStr v
      | none => .vExpr (.tplLit qs es)
    | e' => .vExpr e'
  | v => v

/-- The plugin options (src/plugin.ts lines 9-32).  The include/exclude
file filters only gate whether the transform runs at all and are not
modelled; `isTwToken` is the optional classifier override. -/
structure TailwindPrefixPluginOpts where
  tailwindConfig : Option (List Char) := none
  prefixOverride : Option (List Char) := none
  attributes : Option (List (List Char)) := none
  isTwToken : Option (List Char → Bool) := none

/-- `buildStart` (src/plugin.ts lines 316-318): the cached prefix is
`userOpts?.prefixOverride ?? ""`. -/
def buildStartPrefix (userOpts : Option TailwindPrefixPluginOpts) : List Char :=
  (userOpts.bind TailwindPrefixPluginOpts.prefixOverride).getD []

/-! ## Predicates used to state the properties -/

/-- A character the splitter treats as plain and that cannot form an
important marker: not a top-level separator, bracket, quote, or `!`. -/
def benignChar (c : Char) : Bool :=
  decide (c ≠ ':' ∧ c ≠ '[' ∧ c ≠ ']' ∧ c ≠ '\'' ∧ c ≠ '"' ∧ c ≠ '!')

/-- A prefix string made only of benign characters (e.g. `"tw-"`). -/
def benignPre (pre : List Char) : Bool :=
  pre.all benignChar

/-- A prefix that is benign and also whitespace-free, so that prefixed
tokens survive re-tokenization. -/
def pipeBenignPre (pre : List Char) : Bool :=
  pre.all (fun c => benignChar c && !isWsChar c)

/-- Every `:` in `cs`, processed from state `s`, occurs at bracket depth 0
outside quotes — the "no colon inside brackets/quotes" side condition of
the splitter round-trip, phrased over the splitter's own state machine. -/
def innerColonFree (s : SvState) : List Char → Bool
  | [] => true
  | c :: cs =>
    (if c = ':' ∧ ¬(s.depth = 0 ∧ s.quote = none) then false
     else innerColonFree (svStep s c) cs)

/-- A list of characters that parses from a fresh control state without
producing any split (a complete non-final or final variant segment). -/
def OpenSeg (cs : List Char) : Prop :=
  (svRun initState cs).parts = []

/-- A non-final variant segment: parses without splits and returns to
bracket depth 0 with no open quote. -/
def CleanSeg (cs : List Char) : Prop :=
  (svRun initState cs).parts = [] ∧ (svRun initState cs).depth = 0 ∧
    (svRun initState cs).quote = none

/-- Invariant of the splitter run: the current buffer replays from the
fresh state to the current control state without splits, and the look-back
character agrees with the replay when the buffer is non-empty. -/
def Inv (s : SvState) : Prop :=
  (svRun initState s.buf).parts = [] ∧
  (svRun initState s.buf).depth = s.depth ∧
  (svRun initState s.buf).quote = s.quote ∧
  (s.buf = [] ∨ (svRun initState s.buf).prev = s.prev)

/-- Total length of a segment list. -/
def sumLen (xs : List (List Char)) : Nat :=
  (xs.map List.length).sum

/-! ## Basic lemmas about the splitter state machine -/

theorem svRun_nil (s : SvState) : svRun s [] = s := rfl

theorem svRun_cons (s : SvState) (c : Char) (cs : List Char) :
    svRun s (c :: cs) = svRun (svStep s c) cs := rfl

theorem svRun_append (s : SvState) (a b : List Char) :
    svRun s (a ++ b) = svRun (svRun s a) b :=
  List.foldl_append ..

theorem svStep_split {s : SvState} {c : Char}
    (h : s.quote = none ∧ c = ':' ∧ s.depth = 0) :
    svStep s c = ⟨some c, [], s.depth, none, s.parts ++ [s.buf]⟩ := by
  simp [svStep, h]

theorem svStep_app {s : SvState} {c : Char}
    (h : ¬(s.quote = none ∧ c = ':' ∧ s.depth = 0)) :
    svStep s c = ⟨some c, s.buf ++ [c], (ctlStep s.depth s.quote s.prev c).1,
      (ctlStep s.depth s.quote s.prev c).2, s.parts⟩ := by
  simp [svStep, h]

/-- The parts list only ever grows. -/
theorem parts_mono (cs : List Char) (s : SvState) :
    ∃ e, (svRun s cs).parts = s.parts ++ e := by
  induction cs generalizing s with
  | nil => exact ⟨[], by simp [svRun_nil]⟩
  | cons c cs ih =>
    by_cases h : s.quote = none ∧ c = ':' ∧ s.depth = 0
    · rw [svRun_cons, svStep_split h]
      obtain ⟨e, he⟩ := ih ⟨some c, [], s.depth, none, s.parts ++ [s.buf]⟩
      exact ⟨[s.buf] ++ e, by rw [he]; simp⟩
    · rw [svRun_cons, svStep_app h]
      obtain ⟨e, he⟩ := ih ⟨some c, s.buf ++ [c], (ctlStep s.depth s.quote s.prev c).1,
        (ctlStep s.depth s.quote s.prev c).2, s.parts⟩
      exact ⟨e, he⟩

/-- Reconstruction: the input text is exactly the pushed parts, each
followed by the `:` that split it, followed by the current buffer. -/
theorem svRun_recon (cs : List Char) (s : SvState) :
    ((svRun s cs).parts.map (fun q => q ++ [':'])).flatten ++ (svRun s cs).buf =
      (s.parts.map (fun q => q ++ [':'])).flatten ++ s.buf ++ cs := by
  induction cs generalizing s with
  | nil => simp [svRun_nil]
  | cons c cs ih =>
    rw [svRun_cons]
    by_cases h : s.quote = none ∧ c = ':' ∧ s.depth = 0
    · rw [ih (svStep s c), svStep_split h]
      simp [h.2.1, List.append_assoc]
    · rw [ih (svStep s c), svStep_app h]
      simp [List.append_assoc]

/-- If no split happened, the buffer accumulated exactly the input. -/
theorem buf_of_parts_eq {cs : List Char} {s : SvState}
    (h : (svRun s cs).parts = s.parts) :
    (svRun s cs).buf = s.buf ++ cs := by
  have := svRun_recon cs s
  rw [h] at this
  rw [List.append_assoc] at this
  exact List.append_cancel_left this

/-- Two runs with the same control state (depth and quote, and the same
look-back when a quote is open) split at the same places: if one produces
no split, neither does the other. -/
theorem parts_eq_of_ctl_eq (cs : List Char) (s t : SvState)
    (hd : s.depth = t.depth) (hq : s.quote = t.quote)
    (hpv : s.quote = none ∨ s.prev = t.prev)
    (ht : (svRun t cs).parts = t.parts) :
    (svRun s cs).parts = s.parts := by
  induction cs generalizing s t with
  | nil => simp [svRun_nil]
  | cons c cs ih =>
    have hnt : ¬(t.quote = none ∧ c = ':' ∧ t.depth = 0) := by
      intro hsp
      rw [svRun_cons, svStep_split hsp] at ht
      obtain ⟨e, he⟩ := parts_mono cs ⟨some c, [], t.depth, none, t.parts ++ [t.buf]⟩
      rw [he] at ht
      have hl := congrArg List.length ht
      simp at hl
    have hns : ¬(s.quote = none ∧ c = ':' ∧ s.depth = 0) := by
      rw [hq, hd]; exact hnt
    have hctl : ctlStep s.depth s.quote s.prev c = ctlStep t.depth t.quote t.prev c := by
      rcases hpv with h0 | hpv'
      · rw [h0] at hq
        rw [hd, h0, ← hq]
        rfl
      · rw [hd, hq, hpv']
    rw [svRun_cons, svStep_app hns, hctl]
    rw [svRun_cons, svStep_app hnt] at ht
    exact ih ⟨some c, s.buf ++ [c], (ctlStep t.depth t.quote t.prev c).1,
        (ctlStep t.depth t.quote t.prev c).2, s.parts⟩
      ⟨some c, t.buf ++ [c], (ctlStep t.depth t.quote t.prev c).1,
        (ctlStep t.depth t.quote t.prev c).2, t.parts⟩
      rfl rfl (Or.inr rfl) ht

/-- The run never inspects the parts accumulator: prefixing it commutes
with running. -/
theorem svRun_parts_acc (cs : List Char) (s : SvState) (P : List (List Char)) :
    svRun ⟨s.prev, s.buf, s.depth, s.quote, P ++ s.parts⟩ cs =
      ⟨(svRun s cs).prev, (svRun s cs).buf, (svRun s cs).depth, (svRun s cs).quote,
        P ++ (svRun s cs).parts⟩ := by
  induction cs generalizing s with
  | nil => simp [svRun_nil]
  | cons c cs ih =>
    by_cases h : s.quote = none ∧ c = ':' ∧ s.depth = 0
    · rw [svRun_cons, svRun_cons (s := s), svStep_split h,
        svStep_split (s := ⟨s.prev, s.buf, s.depth, s.quote, P ++ s.parts⟩) h]
      have := ih ⟨some c, [], s.depth, none, s.parts ++ [s.buf]⟩
      simpa [List.append_assoc] using this
    · rw [svRun_cons, svRun_cons (s := s), svStep_app h,
        svStep_app (s := ⟨s.prev, s.buf, s.depth, s.quote, P ++ s.parts⟩) h]
      exact ih ⟨some c, s.buf ++ [c], (ctlStep s.depth s.quote s.prev c).1,
        (ctlStep s.depth s.quote s.prev c).2, s.parts⟩

/-- A run from a fresh control state with any look-back and accumulated
parts is the canonical run with the parts prefixed (on nonempty input, the
look-back is irrelevant because no quote is open). -/
theorem svRun_shift (cs : List Char) (pv : Option Char) (P : List (List Char))
    (hcs : cs ≠ []) :
    svRun ⟨pv, [], 0, none, P⟩ cs =
      ⟨(svRun initState cs).prev, (svRun initState cs).buf, (svRun initState cs).depth,
        (svRun initState cs).quote, P ++ (svRun initState cs).parts⟩ := by
  cases cs with
  | nil => exact absurd rfl hcs
  | cons c cs =>
    by_cases h : c = ':'
    · rw [svRun_cons, svStep_split (s := ⟨pv, [], 0, none, P⟩) ⟨rfl, h, rfl⟩,
        svRun_cons, svStep_split (s := initState) ⟨rfl, h, rfl⟩]
      have := svRun_parts_acc cs ⟨some c, [], 0, none, [[]]⟩ P
      simpa [initState] using this
    · have hn : ¬((none : Option Char) = none ∧ c = ':' ∧ (0 : Nat) = 0) := by
        simp [h]
      rw [svRun_cons, svStep_app (s := ⟨pv, [], 0, none, P⟩) hn,
        svRun_cons, svStep_app (s := initState) hn]
      have hctl : ctlStep 0 none pv c = ctlStep 0 none none c := rfl
      rw [hctl]
      have := svRun_parts_acc cs ⟨some c, [c], (ctlStep 0 none none c).1,
        (ctlStep 0 none none c).2, []⟩ P
      simpa [initState] using this

/-- Benign characters go through the loop as plain buffer appends from any
top-level state. -/
theorem svRun_benign (p : List Char) (s : SvState) (hp : benignPre p = true)
    (hd : s.depth = 0) (hq : s.quote = none) :
    (svRun s p).parts = s.parts ∧ (svRun s p).buf = s.buf ++ p ∧
      (svRun s p).depth = 0 ∧ (svRun s p).quote = none := by
  induction p generalizing s with
  | nil => simp [svRun_nil, hd, hq]
  | cons c p ih =>
    have hb : benignChar c = true ∧ benignPre p = true := by
      simpa [benignPre] using hp
    have hc := of_decide_eq_true hb.1
    have hn : ¬(s.quote = none ∧ c = ':' ∧ s.depth = 0) := by
      simp [hc.1]
    have hctl : ctlStep s.depth s.quote s.prev c = (s.depth, none) := by
      rw [hq]
      simp [ctlStep, hc.2.1, hc.2.2.1, hc.2.2.2.1, hc.2.2.2.2.1]
    rw [svRun_cons, svStep_app hn, hctl]
    have := ih ⟨some c, s.buf ++ [c], s.depth, none, s.parts⟩ hb.2 hd rfl
    simpa [hd, List.append_assoc] using this

/-! ## Lemmas about `joinColon`, `emit` and `splitVariantsL` -/

theorem joinColon_cons {x : List Char} {xs : List (List Char)} (h : xs ≠ []) :
    joinColon (x :: xs) = x ++ ':' :: joinColon xs := by
  cases xs with
  | nil => exact absurd rfl h
  | cons y ys => rfl

theorem joinColon_pair (P : List (List Char)) (a b : List Char) :
    joinColon (P ++ [a, b]) = joinColon (P ++ [a ++ ':' :: b]) := by
  induction P with
  | nil => rfl
  | cons x P ih =>
    rw [List.cons_append, List.cons_append,
      joinColon_cons (by simp), joinColon_cons (by simp), ih]

theorem joinColon_ne_nil {X : List Char} (l : List (List Char)) (hX : X ≠ []) :
    joinColon (l ++ [X]) ≠ [] := by
  induction l with
  | nil => simpa [joinColon]
  | cons x l ih =>
    rw [List.cons_append, joinColon_cons (by simp)]
    simp

theorem emit_eq (s : SvState) :
    emit s = s.parts ++ if s.buf = [] then [] else [s.buf] := rfl

/-- Only the empty input produces the empty segmentation. -/
theorem splitVariantsL_eq_nil {cs : List Char} (h : splitVariantsL cs = []) :
    cs = [] := by
  have hr := svRun_recon cs initState
  have hparts : (svRun initState cs).parts = [] ∧
      (if (svRun initState cs).buf = [] then ([] : List (List Char))
        else [(svRun initState cs).buf]) = [] := by
    have : (svRun initState cs).parts ++
        (if (svRun initState cs).buf = [] then ([] : List (List Char))
          else [(svRun initState cs).buf]) = [] := h
    exact List.append_eq_nil.mp this
  have hbuf : (svRun initState cs).buf = [] := by
    by_cases hb : (svRun initState cs).buf = []
    · exact hb
    · simp [hb] at hparts
  rw [hparts.1, hbuf] at hr
  simpa [initState] using hr.symm

/-! ## Invariant preservation and segment extraction -/

theorem inv_initState : Inv initState := by
  refine ⟨rfl, rfl, rfl, Or.inl rfl⟩

/-- The splitter invariant is preserved by the run, and every part it
pushes is a clean segment. -/
theorem svRun_inv (cs : List Char) (s : SvState) (hs : Inv s) :
    Inv (svRun s cs) ∧
      ∀ seg ∈ (svRun s cs).parts, seg ∈ s.parts ∨ CleanSeg seg := by
  induction cs generalizing s with
  | nil => exact ⟨by simpa [svRun_nil] using hs, fun seg hseg => Or.inl (by simpa using hseg)⟩
  | cons c cs ih =>
    obtain ⟨h1, h2, h3, h4⟩ := hs
    by_cases h : s.quote = none ∧ c = ':' ∧ s.depth = 0
    · rw [svRun_cons, svStep_split h]
      have hclean : CleanSeg s.buf := ⟨h1, by rw [h2, h.2.2], by rw [h3, h.1]⟩
      have hinv : Inv (⟨some c, [], s.depth, none, s.parts ++ [s.buf]⟩ : SvState) := by
        refine ⟨rfl, by simpa [svRun_nil, initState] using h.2.2.symm, rfl, Or.inl rfl⟩
      obtain ⟨ha, hb⟩ := ih ⟨some c, [], s.depth, none, s.parts ++ [s.buf]⟩ hinv
      refine ⟨ha, fun seg hseg => ?_⟩
      rcases hb seg hseg with hm | hcl
      · rcases List.mem_append.mp hm with hm' | hm'
        · exact Or.inl hm'
        · simp at hm'
          rw [hm']
          exact Or.inr hclean
      · exact Or.inr hcl
    · rw [svRun_cons, svStep_app h]
      -- the canonical replay of the buffer takes the same non-splitting step
      have hC : ¬((svRun initState s.buf).quote = none ∧ c = ':' ∧
          (svRun initState s.buf).depth = 0) := by
        rw [h2, h3]; exact h
      have hrep : svRun initState (s.buf ++ [c]) =
          ⟨some c, (svRun initState s.buf).buf ++ [c],
            (ctlStep (svRun initState s.buf).depth (svRun initState s.buf).quote
              (svRun initState s.buf).prev c).1,
            (ctlStep (svRun initState s.buf).depth (svRun initState s.buf).quote
              (svRun initState s.buf).prev c).2,
            (svRun initState s.buf).parts⟩ := by
        rw [svRun_append, svRun_cons, svRun_nil, svStep_app hC]
      have hctl : ctlStep (svRun initState s.buf).depth (svRun initState s.buf).quote
          (svRun initState s.buf).prev c = ctlStep s.depth s.quote s.prev c := by
        rcases h4 with hb0 | hbp
        · -- empty buffer: the replay is the initial state, so no quote is open
          have hqn : s.quote = none := by
            rw [← h3, hb0]; rfl
          rw [h2, h3, hqn]
          rfl
        · rw [h2, h3, hbp]
      have hinv : Inv (⟨some c, s.buf ++ [c], (ctlStep s.depth s.quote s.prev c).1,
          (ctlStep s.depth s.quote s.prev c).2, s.parts⟩ : SvState) := by
        refine ⟨?_, ?_, ?_, Or.inr ?_⟩
        · rw [hrep, hctl]; exact h1
        · rw [hrep, hctl]
        · rw [hrep, hctl]
        · rw [hrep, hctl]
      obtain ⟨ha, hb⟩ := ih ⟨some c, s.buf ++ [c], (ctlStep s.depth s.quote s.prev c).1,
        (ctlStep s.depth s.quote s.prev c).2, s.parts⟩ hinv
      exact ⟨ha, hb⟩

/-- Every non-final segment produced by `splitVariants` is clean. -/
theorem segsClean (cs : List Char) :
    ∀ seg ∈ (splitVariantsL cs).dropLast, CleanSeg seg := by
  intro seg hseg
  obtain ⟨hinv, hparts⟩ := svRun_inv cs initState inv_initState
  have hsub : seg ∈ splitVariantsL cs := List.dropLast_subset _ hseg
  rw [splitVariantsL, emit_eq] at hsub hseg
  by_cases hb : (svRun initState cs).buf = []
  · rw [hb] at hsub
    simp at hsub
    rcases hparts seg hsub with hm | hcl
    · simp [initState] at hm
    · exact hcl
  · rw [if_neg hb, List.dropLast_concat] at hseg
    rcases hparts seg hseg with hm | hcl
    · simp [initState] at hm
    · exact hcl

/-- The final segment of `splitVariants` (or `[]` when there is none)
parses without splits. -/
theorem lastOpen (cs : List Char) :
    OpenSeg ((splitVariantsL cs).getLast?.getD []) := by
  obtain ⟨hinv, hparts⟩ := svRun_inv cs initState inv_initState
  rw [splitVariantsL, emit_eq]
  by_cases hb : (svRun initState cs).buf = []
  · simp only [hb, if_pos, List.append_nil]
    cases hlast : (svRun initState cs).parts.getLast? with
    | none => exact (rfl : (svRun initState ([] : List Char)).parts = [])
    | some seg =>
      obtain ⟨hne, hseg⟩ := List.mem_getLast?_eq_getLast (l := (svRun initState cs).parts)
        (x := seg) hlast
      have hmem : seg ∈ (svRun initState cs).parts := hseg ▸ List.getLast_mem hne
      rcases hparts seg hmem with hm | hcl
      · simp [initState] at hm
      · simpa using hcl.1
  · rw [if_neg hb, List.getLast?_concat]
    simpa using hinv.1

/-- Appending a benign prefix in front of a split-free segment keeps it
split-free. -/
theorem openSeg_append_benign {p L : List Char} (hp : benignPre p = true)
    (hL : OpenSeg L) : OpenSeg (p ++ L) := by
  obtain ⟨hpp, hpb, hpd, hpq⟩ := svRun_benign p initState hp rfl rfl
  rw [OpenSeg, svRun_append]
  have := parts_eq_of_ctl_eq L (svRun initState p) initState
    (by rw [hpd]; rfl) (by rw [hpq]; rfl) (Or.inl hpq) hL
  rw [this, hpp]
  rfl

/-- A split-free input is its own single segment. -/
theorem splitVariantsL_openSeg {X : List Char} (hX : OpenSeg X) (hne : X ≠ []) :
    splitVariantsL X = [X] := by
  have hbuf : (svRun initState X).buf = X := by
    have := @buf_of_parts_eq X initState hX
    simpa [initState] using this
  rw [splitVariantsL, emit_eq, hX, hbuf, if_neg hne]
  rfl

/-- Re-splitting the rejoined segments of clean segments followed by one
non-empty split-free segment recovers exactly those segments. -/
theorem resplit (init : List (List Char)) (X : List Char)
    (hinit : ∀ seg ∈ init, CleanSeg seg) (hX : OpenSeg X) (hne : X ≠ []) :
    splitVariantsL (joinColon (init ++ [X])) = init ++ [X] := by
  induction init with
  | nil => simpa using splitVariantsL_openSeg hX hne
  | cons s₀ init ih =>
    have hrest : joinColon (init ++ [X]) ≠ [] := joinColon_ne_nil init hne
    have hs₀ : CleanSeg s₀ := hinit s₀ (by simp)
    have hbuf : (svRun initState s₀).buf = s₀ := by
      have := @buf_of_parts_eq s₀ initState hs₀.1
      simpa [initState] using this
    have hjoin : joinColon ((s₀ :: init) ++ [X]) = (s₀ ++ [':']) ++ joinColon (init ++ [X]) := by
      rw [List.cons_append, joinColon_cons (by simp), List.append_assoc]
      rfl
    rw [hjoin, splitVariantsL, svRun_append, svRun_append, svRun_cons, svRun_nil]
    have hstep : svStep (svRun initState s₀) ':' =
        ⟨some ':', [], (svRun initState s₀).depth, none, [s₀]⟩ := by
      rw [svStep_split ⟨hs₀.2.2, rfl, hs₀.2.1⟩, hs₀.1, hbuf]
      rfl
    rw [hstep, hs₀.2.1, svRun_shift _ _ _ hrest]
    have hih := ih (fun seg hseg => hinit seg (by simp [hseg]))
    rw [splitVariantsL, emit_eq] at hih
    rw [emit_eq]
    simp only [List.cons_append]
    rw [← List.singleton_append, List.append_assoc, hih]
    simp

/-! ## `startsWithL` -/

theorem startsWithL_append (p r : List Char) : startsWithL (p ++ r) p = true := by
  induction p with
  | nil => cases r <;> rfl
  | cons c p ih => simpa [startsWithL] using ih

theorem startsWithL_iff (s p : List Char) :
    startsWithL s p = true ↔ ∃ r, s = p ++ r := by
  constructor
  · intro h
    induction p generalizing s with
    | nil => exact ⟨s, rfl⟩
    | cons d p ih =>
      cases s with
      | nil => simp [startsWithL] at h
      | cons c s =>
        simp only [startsWithL, Bool.and_eq_true, beq_iff_eq] at h
        obtain ⟨r, hr⟩ := ih s h.2
        exact ⟨r, by rw [h.1, hr]; rfl⟩
  · rintro ⟨r, rfl⟩
    exact startsWithL_append p r

/-! ## Idempotence of the token prefixer for benign prefixes -/

theorem prefixCore_unfold (u p : List Char) :
    prefixCore u p =
      if startsWithL ((splitVariantsL u).getLast?.getD []) p
      then joinColon ((splitVariantsL u).dropLast ++ [(splitVariantsL u).getLast?.getD []])
      else joinColon ((splitVariantsL u).dropLast ++
        [p ++ (splitVariantsL u).getLast?.getD []]) := rfl

theorem prefixCore_idem (t' p : List Char) (hp : benignPre p = true) (hpne : p ≠ []) :
    prefixCore (prefixCore t' p) p = prefixCore t' p := by
  have hClean : ∀ seg ∈ (splitVariantsL t').dropLast, CleanSeg seg := segsClean t'
  have hOpenL : OpenSeg ((splitVariantsL t').getLast?.getD []) := lastOpen t'
  rw [prefixCore_unfold t' p]
  by_cases hsw : startsWithL ((splitVariantsL t').getLast?.getD []) p = true
  · rw [if_pos hsw]
    obtain ⟨r, hr⟩ := (startsWithL_iff _ p).mp hsw
    have hXne : (splitVariantsL t').getLast?.getD [] ≠ [] := by
      rw [hr]
      intro h
      exact hpne (List.append_eq_nil.mp h).1
    have hre := resplit _ _ hClean hOpenL hXne
    rw [prefixCore_unfold, hre, List.getLast?_concat]
    simp only [Option.getD_some, List.dropLast_concat]
    rw [if_pos hsw]
  · rw [if_neg hsw]
    have hOpenX : OpenSeg (p ++ (splitVariantsL t').getLast?.getD []) :=
      openSeg_append_benign hp hOpenL
    have hXne : p ++ (splitVariantsL t').getLast?.getD [] ≠ [] := by
      intro h
      exact hpne (List.append_eq_nil.mp h).1
    have hre := resplit _ _ hClean hOpenX hXne
    rw [prefixCore_unfold, hre, List.getLast?_concat]
    simp only [Option.getD_some, List.dropLast_concat]
    rw [if_pos (startsWithL_append p _)]

theorem eq_cons_of_dropLast_cons {l : List (List Char)} {a : List Char}
    {t : List (List Char)} (h : l.dropLast = a :: t) : ∃ t2, l = a :: t2 := by
  cases l with
  | nil => simp at h
  | cons b l' =>
    cases l' with
    | nil => simp at h
    | cons c l'' =>
      rw [List.dropLast_cons₂] at h
      injection h with h1 h2
      exact ⟨c :: l'', by rw [h1]⟩

/-- Reconstruction from the initial state. -/
theorem recon0 (cs : List Char) :
    ((svRun initState cs).parts.map (fun q => q ++ [':'])).flatten ++
      (svRun initState cs).buf = cs := by
  rw [svRun_recon cs initState]
  rfl

/-- The first character of a token is the first character of its first
variant segment, when that segment is non-empty. -/
theorem firstSeg_head {cs s₀ : List Char} {rest : List (List Char)}
    (h : splitVariantsL cs = s₀ :: rest) (hne : s₀ ≠ []) : cs.head? = s₀.head? := by
  have hr := recon0 cs
  rw [splitVariantsL, emit_eq] at h
  cases hp : (svRun initState cs).parts with
  | nil =>
    rw [hp] at h hr
    by_cases hb : (svRun initState cs).buf = []
    · rw [hb] at h
      simp at h
    · rw [if_neg hb] at h
      simp at h
      simp only [List.map_nil, List.flatten_nil, List.nil_append] at hr
      rw [← hr, h.1]
  | cons q parts' =>
    rw [hp] at h hr
    simp only [List.cons_append] at h
    injection h with h1 h2
    simp only [List.map_cons, List.flatten_cons, List.append_assoc] at hr
    cases hq : q with
    | nil =>
      rw [hq] at h1
      rw [← h1] at hne
      exact absurd rfl hne
    | cons c q' =>
      rw [hq] at hr h1
      rw [← hr, ← h1]
      rfl

/-- If a rejoin of segments whose last element starts with a benign
character has a leading `!`, then it came from a non-empty first segment
starting with `!`. -/
theorem joinColon_head_bang {init : List (List Char)} {X : List Char} {c : Char}
    (hXh : X.head? = some c) (hc : c ≠ '!')
    (h : (joinColon (init ++ [X])).head? = some '!') :
    ∃ s₀ rest, init = s₀ :: rest ∧ s₀.head? = some '!' := by
  cases init with
  | nil =>
    simp only [List.nil_append] at h
    have hJ : joinColon [X] = X := rfl
    rw [hJ, hXh] at h
    injection h with h'
    exact absurd h' hc
  | cons s₀ init' =>
    rw [List.cons_append, joinColon_cons (by simp)] at h
    cases s₀ with
    | nil => simp at h
    | cons d s₀' =>
      simp only [List.cons_append, List.head?_cons, Option.some.injEq] at h
      exact ⟨d :: s₀', init', rfl, by simp [h]⟩

/-- If the prefixed body starts with the important marker, the input
already did (benign prefixes cannot create one). -/
theorem prefixCore_head (t' p : List Char) (hp : benignPre p = true) (hpne : p ≠ [])
    (h : (prefixCore t' p).head? = some '!') : t'.head? = some '!' := by
  obtain ⟨c, p', rfl⟩ : ∃ c p', p = c :: p' := by
    cases p with
    | nil => exact absurd rfl hpne
    | cons c p' => exact ⟨c, p', rfl⟩
  have hb : benignChar c = true := by
    simp only [benignPre, List.all_cons, Bool.and_eq_true] at hp
    exact hp.1
  have hc : c ≠ '!' := (of_decide_eq_true hb).2.2.2.2.2
  rw [prefixCore_unfold] at h
  have hbangParts : ∃ s₀ rest, (splitVariantsL t').dropLast = s₀ :: rest ∧
      s₀.head? = some '!' := by
    by_cases hsw : startsWithL ((splitVariantsL t').getLast?.getD []) (c :: p') = true
    · rw [if_pos hsw] at h
      obtain ⟨r, hr⟩ := (startsWithL_iff _ _).mp hsw
      exact joinColon_head_bang (X := (splitVariantsL t').getLast?.getD [])
        (by rw [hr]; rfl) hc h
    · rw [if_neg hsw] at h
      exact joinColon_head_bang
        (X := (c :: p') ++ (splitVariantsL t').getLast?.getD []) rfl hc h
  obtain ⟨s₀, rest, hinitc, hs₀h⟩ := hbangParts
  obtain ⟨t2, ht2⟩ := eq_cons_of_dropLast_cons hinitc
  have hfh := firstSeg_head ht2 (by intro hnil; rw [hnil] at hs₀h; simp at hs₀h)
  rw [hfh, hs₀h]

theorem stripImportant_bang {t : List Char} (h : t.head? = some '!') :
    stripImportant t = (['!'], t.tail) := by
  simp [stripImportant, h]

theorem stripImportant_no_bang {t : List Char} (h : t.head? ≠ some '!') :
    stripImportant t = ([], t) := by
  simp [stripImportant, h]

theorem prefixOneToken_unfold {t p : List Char} (hpe : p ≠ []) :
    prefixOneToken t p = (stripImportant t).1 ++ prefixCore (stripImportant t).2 p := by
  simp [prefixOneToken, hpe]

/-- Idempotence of the token prefixer for benign prefixes. -/
theorem prefixOneToken_idem_aux (t p : List Char) (hp : benignPre p = true) :
    prefixOneToken (prefixOneToken t p) p = prefixOneToken t p := by
  by_cases hpe : p = []
  · simp [prefixOneToken, hpe]
  · rw [prefixOneToken_unfold hpe]
    by_cases hb : t.head? = some '!'
    · have hPOT : prefixOneToken t p = ['!'] ++ prefixCore t.tail p := by
        rw [prefixOneToken_unfold hpe, stripImportant_bang hb]
      rw [hPOT]
      have h2 : ((['!'] ++ prefixCore t.tail p) : List Char).head? = some '!' := rfl
      rw [stripImportant_bang h2]
      simp [prefixCore_idem t.tail p hp hpe]
    · have hPOT : prefixOneToken t p = prefixCore t p := by
        rw [prefixOneToken_unfold hpe, stripImportant_no_bang hb]
        simp
      rw [hPOT]
      have h2 : (prefixCore t p).head? ≠ some '!' := by
        intro hcontra
        exact hb (prefixCore_head t p hp hpe hcontra)
      rw [stripImportant_no_bang h2]
      simp [prefixCore_idem t p hp hpe]

/-! ## Non-emptiness and character containment of prefixed tokens -/

theorem prefixCore_ne_nil (t' p : List Char) (hpe : p ≠ []) :
    prefixCore t' p ≠ [] := by
  rw [prefixCore_unfold]
  by_cases hsw : startsWithL ((splitVariantsL t').getLast?.getD []) p = true
  · rw [if_pos hsw]
    obtain ⟨r, hr⟩ := (startsWithL_iff _ _).mp hsw
    exact joinColon_ne_nil _ (by rw [hr]; intro hcon; exact hpe (List.append_eq_nil.mp hcon).1)
  · rw [if_neg hsw]
    exact joinColon_ne_nil _ (by intro hcon; exact hpe (List.append_eq_nil.mp hcon).1)

theorem prefixOneToken_ne_nil {t p : List Char} (ht : t ≠ []) :
    prefixOneToken t p ≠ [] := by
  by_cases hpe : p = []
  · simpa [prefixOneToken, hpe] using ht
  · rw [prefixOneToken_unfold hpe]
    intro hcon
    exact prefixCore_ne_nil (stripImportant t).2 p hpe (List.append_eq_nil.mp hcon).2

theorem mem_joinColon {x : Char} {l : List (List Char)} (h : x ∈ joinColon l) :
    x = ':' ∨ ∃ s ∈ l, x ∈ s := by
  induction l with
  | nil => simp [joinColon] at h
  | cons a l ih =>
    cases l with
    | nil =>
      exact Or.inr ⟨a, by simp, by simpa [joinColon] using h⟩
    | cons b l' =>
      rw [joinColon_cons (by simp)] at h
      rcases List.mem_append.mp h with ha | hrest
      · exact Or.inr ⟨a, by simp, ha⟩
      · rcases List.mem_cons.mp hrest with hcolon | hjoin
        · exact Or.inl hcolon
        · rcases ih hjoin with hc | ⟨s, hs, hxs⟩
          · exact Or.inl hc
          · exact Or.inr ⟨s, by simp [hs], hxs⟩

theorem mem_splitVariantsL {x : Char} {seg cs : List Char}
    (hseg : seg ∈ splitVariantsL cs) (hx : x ∈ seg) : x ∈ cs := by
  have hr := recon0 cs
  rw [splitVariantsL, emit_eq] at hseg
  rcases List.mem_append.mp hseg with hm | hm
  · have : x ∈ ((svRun initState cs).parts.map (fun q => q ++ [':'])).flatten := by
      rw [List.mem_flatten]
      exact ⟨seg ++ [':'], List.mem_map_of_mem _ hm, List.mem_append_left _ hx⟩
    rw [← hr]
    exact List.mem_append_left _ this
  · by_cases hb : (svRun initState cs).buf = []
    · rw [hb] at hm
      simp at hm
    · rw [if_neg hb] at hm
      simp at hm
      rw [← hr]
      exact List.mem_append_right _ (hm ▸ hx)

theorem mem_splitVariantsL_getLast {x : Char} {cs : List Char}
    (hx : x ∈ (splitVariantsL cs).getLast?.getD ([] : List Char)) :
    ∃ seg ∈ splitVariantsL cs, x ∈ seg := by
  cases hlast : (splitVariantsL cs).getLast? with
  | none => rw [hlast] at hx; simp at hx
  | some seg =>
    obtain ⟨hne, hseg⟩ := List.mem_getLast?_eq_getLast (x := seg) hlast
    rw [hlast] at hx
    exact ⟨seg, hseg ▸ List.getLast_mem hne, by simpa using hx⟩

/-- Every character of a prefixed token comes from the token, the prefix,
or is a separator colon or the important marker already present. -/
theorem mem_prefixOneToken {x : Char} {t p : List Char}
    (h : x ∈ prefixOneToken t p) : x ∈ t ∨ x ∈ p ∨ x = ':' := by
  by_cases hpe : p = []
  · rw [prefixOneToken, if_pos hpe] at h
    exact Or.inl h
  · rw [prefixOneToken_unfold hpe] at h
    have hbody : ∀ u : List Char, (∀ y ∈ u, y ∈ t) → x ∈ prefixCore u p →
        x ∈ t ∨ x ∈ p ∨ x = ':' := by
      intro u hu hx
      rw [prefixCore_unfold] at hx
      have hx' : x ∈ joinColon ((splitVariantsL u).dropLast ++
          [(splitVariantsL u).getLast?.getD []]) ∨
          x ∈ joinColon ((splitVariantsL u).dropLast ++
            [p ++ (splitVariantsL u).getLast?.getD []]) := by
        by_cases hsw : startsWithL ((splitVariantsL u).getLast?.getD []) p = true
        · rw [if_pos hsw] at hx; exact Or.inl hx
        · rw [if_neg hsw] at hx; exact Or.inr hx
      have hlastmem : ∀ y : Char, y ∈ (splitVariantsL u).getLast?.getD ([] : List Char) →
          y ∈ t := by
        intro y hy
        obtain ⟨seg, hsm, hys⟩ := mem_splitVariantsL_getLast hy
        exact hu y (mem_splitVariantsL hsm hys)
      rcases hx' with hj | hj <;> rcases mem_joinColon hj with hc | ⟨s, hs, hxs⟩
      · exact Or.inr (Or.inr hc)
      · rcases List.mem_append.mp hs with hsd | hsl
        · exact Or.inl (hu x (mem_splitVariantsL (List.dropLast_subset _ hsd) hxs))
        · simp at hsl
          exact Or.inl (hlastmem x (hsl ▸ hxs))
      · exact Or.inr (Or.inr hc)
      · rcases List.mem_append.mp hs with hsd | hsl
        · exact Or.inl (hu x (mem_splitVariantsL (List.dropLast_subset _ hsd) hxs))
        · simp at hsl
          rcases List.mem_append.mp (hsl ▸ hxs) with hxp | hxl
          · exact Or.inr (Or.inl hxp)
          · exact Or.inl (hlastmem x hxl)
    by_cases hb : t.head? = some '!'
    · rw [stripImportant_bang hb] at h
      rcases List.mem_append.mp h with hm | hm
      · simp at hm
        cases t with
        | nil => simp at hb
        | cons c t0 =>
          injection hb with hb'
          exact Or.inl (by rw [hm, ← hb']; simp)
      · refine hbody t.tail (fun y hy => ?_) hm
        cases t with
        | nil => simp at hy
        | cons c t0 => exact List.mem_cons_of_mem _ hy
    · rw [stripImportant_no_bang hb] at h
      exact hbody t (fun y hy => hy) (by simpa using h)

/-! ## Tokenizer lemmas -/

theorem wsTokensAux_props (cs : List Char) : ∀ (buf : List Char),
    (∀ c ∈ buf, isWsChar c = false) →
    ∀ tok ∈ wsTokensAux buf cs, tok ≠ [] ∧ ∀ c ∈ tok, isWsChar c = false := by
  induction cs with
  | nil =>
    intro buf hbuf tok htok
    by_cases hb : buf = []
    · simp [wsTokensAux, hb] at htok
    · rw [wsTokensAux, if_neg hb] at htok
      simp at htok
      exact htok ▸ ⟨hb, hbuf⟩
  | cons c cs ih =>
    intro buf hbuf tok htok
    rw [wsTokensAux] at htok
    by_cases hc : isWsChar c = true
    · rw [if_pos hc] at htok
      by_cases hb : buf = []
      · rw [if_pos hb] at htok
        exact ih [] (by simp) tok htok
      · rw [if_neg hb] at htok
        rcases List.mem_cons.mp htok with heq | hmem
        · exact heq ▸ ⟨hb, hbuf⟩
        · exact ih [] (by simp) tok hmem
    · rw [if_neg hc] at htok
      refine ih (buf ++ [c]) ?_ tok htok
      intro d hd
      rcases List.mem_append.mp hd with hdb | hdc
      · exact hbuf d hdb
      · simp at hdc
        rw [hdc]
        exact Bool.not_eq_true _ ▸ (by simpa using hc)

theorem wsTokens_props (cs : List Char) :
    ∀ tok ∈ wsTokens cs, tok ≠ [] ∧ ∀ c ∈ tok, isWsChar c = false :=
  wsTokensAux_props cs [] (by simp)

theorem wsTokensAux_chunk (tok : List Char)
    (hws : ∀ c ∈ tok, isWsChar c = false) :
    ∀ (buf r : List Char), wsTokensAux buf (tok ++ r) = wsTokensAux (buf ++ tok) r := by
  induction tok with
  | nil => intro buf r; simp
  | cons c tok ih =>
    intro buf r
    have hc : isWsChar c = false := hws c (by simp)
    rw [List.cons_append, wsTokensAux, if_neg (by simp [hc]),
      ih (fun d hd => hws d (by simp [hd])) (buf ++ [c]) r]
    simp

theorem wsTokens_roundtrip (toks : List (List Char))
    (h : ∀ tok ∈ toks, tok ≠ [] ∧ ∀ c ∈ tok, isWsChar c = false) :
    wsTokens (joinSpace toks) = toks := by
  induction toks with
  | nil => rfl
  | cons t ts ih =>
    obtain ⟨htne, htws⟩ := h t (by simp)
    cases ts with
    | nil =>
      show wsTokensAux [] (joinSpace [t]) = [t]
      have : joinSpace [t] = t ++ [] := by simp [joinSpace]
      rw [this, wsTokensAux_chunk t htws [] []]
      simp [wsTokensAux, htne]
    | cons t2 ts2 =>
      have hjs : joinSpace (t :: t2 :: ts2) = t ++ ' ' :: joinSpace (t2 :: ts2) := rfl
      show wsTokensAux [] (joinSpace (t :: t2 :: ts2)) = t :: t2 :: ts2
      rw [hjs, wsTokensAux_chunk t htws [] (' ' :: joinSpace (t2 :: ts2))]
      rw [wsTokensAux, if_pos (by rfl), if_neg (by simpa using htne)]
      simp only [List.nil_append]
      show t :: wsTokens (joinSpace (t2 :: ts2)) = t :: t2 :: ts2
      rw [ih (fun tok htok => h tok (by simp [htok]))]

/-! ## Idempotence of the string rewriter and of the attribute visitor -/

theorem pipeBenign_benign {p : List Char} (hp : pipeBenignPre p = true) :
    benignPre p = true := by
  simp only [pipeBenignPre, List.all_eq_true, Bool.and_eq_true] at hp
  simp only [benignPre, List.all_eq_true]
  exact fun c hc => (hp c hc).1

theorem pipeBenign_ws {p : List Char} (hp : pipeBenignPre p = true) :
    ∀ c ∈ p, isWsChar c = false := by
  simp only [pipeBenignPre, List.all_eq_true, Bool.and_eq_true] at hp
  intro c hc
  have := (hp c hc).2
  simpa using this

theorem rewriteToken_idem (p : List Char) (f : Option (List Char → Bool))
    (hp : benignPre p = true) (tok : List Char) :
    rewriteToken p f (rewriteToken p f tok) = rewriteToken p f tok := by
  by_cases hcls : (f.getD isLikelyTailwindToken) tok = true
  · simp only [rewriteToken, if_pos hcls]
    by_cases hcls2 : (f.getD isLikelyTailwindToken) (prefixOneToken tok p) = true
    · simp only [if_pos hcls2]
      exact prefixOneToken_idem_aux tok p hp
    · simp only [if_neg hcls2]
  · simp only [rewriteToken, if_neg hcls]

theorem map_rewriteToken_idem (p : List Char) (f : Option (List Char → Bool))
    (hp : benignPre p = true) (l : List (List Char)) :
    (l.map (rewriteToken p f)).map (rewriteToken p f) = l.map (rewriteToken p f) := by
  induction l with
  | nil => rfl
  | cons t l ih => simp [rewriteToken_idem p f hp t, ih]

theorem rewriteToken_props (p : List Char) (f : Option (List Char → Bool))
    (hp : pipeBenignPre p = true) (tok : List Char) (htne : tok ≠ [])
    (htws : ∀ c ∈ tok, isWsChar c = false) :
    rewriteToken p f tok ≠ [] ∧ ∀ c ∈ rewriteToken p f tok, isWsChar c = false := by
  by_cases hcls : (f.getD isLikelyTailwindToken) tok = true
  · simp only [rewriteToken, if_pos hcls]
    refine ⟨prefixOneToken_ne_nil htne, fun c hc => ?_⟩
    rcases mem_prefixOneToken hc with hm | hm | hm
    · exact htws c hm
    · exact pipeBenign_ws hp c hm
    · rw [hm]; rfl
  · simp only [rewriteToken, if_neg hcls]
    exact ⟨htne, htws⟩

theorem transformClassesInString_idem (input p : List Char)
    (f : Option (List Char → Bool)) (hp : pipeBenignPre p = true) :
    transformClassesInString (transformClassesInString input p f) p f =
      transformClassesInString input p f := by
  have hb : benignPre p = true := pipeBenign_benign hp
  have houtprops : ∀ tok ∈ (wsTokens input).map (rewriteToken p f),
      tok ≠ [] ∧ ∀ c ∈ tok, isWsChar c = false := by
    intro tok htok
    obtain ⟨tok0, htok0, rfl⟩ := List.mem_map.mp htok
    obtain ⟨h1, h2⟩ := wsTokens_props input tok0 htok0
    exact rewriteToken_props p f hp tok0 h1 h2
  show joinSpace ((wsTokens (joinSpace ((wsTokens input).map (rewriteToken p f)))).map
    (rewriteToken p f)) = _
  rw [wsTokens_roundtrip _ houtprops, map_rewriteToken_idem p f hb]
  rfl

theorem transformArg_idem (p : List Char) (f : Option (List Char → Bool))
    (hp : pipeBenignPre p = true) (e : Expr) :
    transformArg p f (transformArg p f e) = transformArg p f e := by
  cases e with
  | strLit s => simp [transformArg, transformClassesInString_idem _ _ _ hp]
  | tplLit qs es =>
    cases es with
    | nil =>
      simp [transformArg, transformTemplateLiteralIfStatic,
        transformClassesInString_idem _ _ _ hp]
    | cons e es => simp [transformArg, transformTemplateLiteralIfStatic]
  | logicE op l r =>
    cases r with
    | strLit s => simp [transformArg, transformClassesInString_idem _ _ _ hp]
    | tplLit qs es =>
      cases es with
      | nil =>
        simp [transformArg, transformTemplateLiteralIfStatic,
          transformClassesInString_idem _ _ _ hp]
      | cons e es => simp [transformArg, transformTemplateLiteralIfStatic]
    | logicE op2 a b => rfl
    | callE n as => rfl
    | objE l2 => rfl
    | arrE l2 => rfl
    | spreadE x => rfl
    | identE n => rfl
    | otherE k => rfl
  | callE n as => rfl
  | objE l2 => rfl
  | arrE l2 => rfl
  | spreadE x => rfl
  | identE n => rfl
  | otherE k => rfl

theorem transformAttrValue_idem (p : List Char) (f : Option (List Char → Bool))
    (hp : pipeBenignPre p = true) (v : AttrVal) :
    transformAttrValue p f (transformAttrValue p f v) = transformAttrValue p f v := by
  cases v with
  | vNone => rfl
  | vElem k => rfl
  | vStr s => simp [transformAttrValue, transformClassesInString_idem _ _ _ hp]
  | vExpr e =>
    cases e with
    | callE name args =>
      by_cases hname : name = "clsx".data ∨ name = "classnames".data
      · simp only [transformAttrValue, if_pos hname, List.map_map]
        have hmap : ∀ (l2 : List Expr),
            l2.map (transformArg p f ∘ transformArg p f) = l2.map (transformArg p f) := by
          intro l2
          induction l2 with
          | nil => rfl
          | cons a l2 ih2 => simp [Function.comp, transformArg_idem p f hp a, ih2]
        rw [hmap]
      · simp only [transformAttrValue, if_neg hname]
    | tplLit qs es =>
      cases es with
      | nil =>
        simp [transformAttrValue, transformTemplateLiteralIfStatic,
          transformClassesInString_idem _ _ _ hp]
      | cons e es => simp [transformAttrValue, transformTemplateLiteralIfStatic]
    | strLit s => rfl
    | logicE op a b => rfl
    | objE l2 => rfl
    | arrE l2 => rfl
    | spreadE x => rfl
    | identE n => rfl
    | otherE k => rfl

/-! ## Round trip of splitting and rejoining -/

/-- When every colon is top-level and the input does not end in a `:`,
rejoining the split with `:` restores the input (relative to a running
state). -/
theorem innerColonFree_join (cs : List Char) : ∀ (s : SvState),
    innerColonFree s cs = true → cs ≠ [] → cs.getLast? ≠ some ':' →
    joinColon (emit (svRun s cs)) = joinColon (s.parts ++ [s.buf ++ cs]) := by
  induction cs with
  | nil => intro s _ hne _; exact absurd rfl hne
  | cons c cs ih =>
    intro s hfree hne hlast
    rw [innerColonFree] at hfree
    have hfree' : innerColonFree (svStep s c) cs = true := by
      by_cases hcond : c = ':' ∧ ¬(s.depth = 0 ∧ s.quote = none)
      · rw [if_pos hcond] at hfree
        exact absurd hfree (by simp)
      · rwa [if_neg hcond] at hfree
    by_cases hsplit : s.quote = none ∧ c = ':' ∧ s.depth = 0
    · have hcs_ne : cs ≠ [] := by
        intro h
        rw [h] at hlast
        exact hlast (by rw [hsplit.2.1]; simp)
      have hlast' : cs.getLast? ≠ some ':' := by
        cases cs with
        | nil => exact absurd rfl hcs_ne
        | cons c2 cs2 => rw [← List.getLast?_cons_cons (a := c)]; exact hlast
      rw [svRun_cons, ih _ hfree' hcs_ne hlast', svStep_split hsplit]
      rw [hsplit.2.1]
      have hpair := joinColon_pair s.parts s.buf cs
      rw [← hpair]
      simp [List.append_assoc]
    · cases cs with
      | nil =>
        rw [svRun_cons, svRun_nil, svStep_app hsplit, emit_eq]
        simp
      | cons c2 cs2 =>
        have hlast' : (c2 :: cs2).getLast? ≠ some ':' := by
          rw [← List.getLast?_cons_cons (a := c)]
          exact hlast
        rw [svRun_cons, ih _ hfree' (by simp) hlast', svStep_app hsplit]
        simp

/-- Length of the reconstruction flatten. -/
theorem sumLen_flatten (P : List (List Char)) :
    ((P.map (fun q => q ++ [':'])).flatten).length = sumLen P + P.length := by
  induction P with
  | nil => rfl
  | cons q P ih =>
    simp [sumLen] at ih ⊢
    omega

theorem sumLen_emit (s : SvState) :
    sumLen (emit s) = sumLen s.parts + s.buf.length := by
  rw [emit_eq]
  by_cases hb : s.buf = []
  · simp [hb, sumLen]
  · simp [hb, sumLen]

/-! ## Empty prefix -/

theorem rewriteToken_empty_pre (f : Option (List Char → Bool)) (tok : List Char) :
    rewriteToken [] f tok = tok := by
  simp [rewriteToken, prefixOneToken]

theorem map_rewriteToken_empty (f : Option (List Char → Bool)) (l : List (List Char)) :
    l.map (rewriteToken [] f) = l := by
  induction l with
  | nil => rfl
  | cons t l ih => simp [rewriteToken_empty_pre, ih]

theorem transformClassesInString_empty_pre (input : List Char)
    (f : Option (List Char → Bool)) :
    transformClassesInString input [] f = joinSpace (wsTokens input) := by
  show joinSpace ((wsTokens input).map (rewriteToken [] f)) = _
  rw [map_rewriteToken_empty]

/-! ## Claim theorems -/

/-- C1, counterexample: the prefixer is not idempotent for every prefix.
With the prefix `":"` the token `"a"` becomes `":a"` and then `"::a"`. -/
theorem claim1_counterexample :
    prefixOneToken (prefixOneToken "a".data ":".data) ":".data ≠
      prefixOneToken "a".data ":".data := by
  decide

/-- C1 (amended): for every token `t` and every prefix `p` containing no
splitter-special character (`:`, `[`, `]`, quotes) and no `!`, applying the
token prefixer twice equals applying it once. -/
theorem claim1_prefixer_idempotent (t p : List Char) (hp : benignPre p = true) :
    prefixOneToken (prefixOneToken t p) p = prefixOneToken t p :=
  prefixOneToken_idem_aux t p hp

/-- C1 witness at the token `"hover:bg-red-500"` and prefix `"tw-"`. -/
theorem claim1_witness :
    benignPre "tw-".data = true ∧
      prefixOneToken (prefixOneToken "hover:bg-red-500".data "tw-".data) "tw-".data =
        prefixOneToken "hover:bg-red-500".data "tw-".data :=
  ⟨by decide, claim1_prefixer_idempotent "hover:bg-red-500".data "tw-".data (by decide)⟩

/-- C2, counterexample: with the prefix `":"` the attribute value
`className="flex"` is rewritten to `":flex"` on the first run and to
`"::flex"` on the second, so the pipeline is not idempotent for every
configuration. -/
theorem claim2_counterexample :
    transformAttrValue ":".data none
        (transformAttrValue ":".data none (AttrVal.vStr "flex".data)) ≠
      transformAttrValue ":".data none (AttrVal.vStr "flex".data) := by
  intro h
  have h1 : transformAttrValue ":".data none
      (transformAttrValue ":".data none (AttrVal.vStr "flex".data)) =
      AttrVal.vStr "::flex".data := rfl
  have h2 : transformAttrValue ":".data none (AttrVal.vStr "flex".data) =
      AttrVal.vStr ":flex".data := rfl
  rw [h1, h2] at h
  injection h with h3
  exact absurd h3 (by decide)

/-- C2 (amended): for every configuration whose prefix contains no
splitter-special character, no `!`, and no whitespace, running the rewrite
twice on already-rewritten output is a no-op: both on any class-bearing
string and on any eligible attribute value, for any (pure) classifier
override. -/
theorem claim2_pipeline_idempotent (p input : List Char)
    (f : Option (List Char → Bool)) (v : AttrVal) (hp : pipeBenignPre p = true) :
    transformAttrValue p f (transformAttrValue p f v) = transformAttrValue p f v ∧
      transformClassesInString (transformClassesInString input p f) p f =
        transformClassesInString input p f :=
  ⟨transformAttrValue_idem p f hp v, transformClassesInString_idem input p f hp⟩

/-- C2 witness at prefix `"tw-"`, a plain string attribute value and a
two-token class string. -/
theorem claim2_witness :
    pipeBenignPre "tw-".data = true ∧
      (transformAttrValue "tw-".data none
          (transformAttrValue "tw-".data none (AttrVal.vStr "flex".data)) =
        transformAttrValue "tw-".data none (AttrVal.vStr "flex".data) ∧
      transformClassesInString
          (transformClassesInString "bg-red-500 text-white".data "tw-".data none)
          "tw-".data none =
        transformClassesInString "bg-red-500 text-white".data "tw-".data none) :=
  ⟨by decide, claim2_pipeline_idempotent "tw-".data "bg-red-500 text-white".data none
    (AttrVal.vStr "flex".data) (by decide)⟩

/-- C3, counterexample: the token `"a:"` has no colon inside brackets or
quotes, yet rejoining the split with `":"` gives `"a"`, not `"a:"` (the
trailing empty buffer is dropped). -/
theorem claim3_counterexample :
    innerColonFree initState "a:".data = true ∧
      joinColon (splitVariantsL "a:".data) ≠ "a:".data := by
  constructor
  · decide
  · decide

/-- C3 (amended): for every token with no colon inside brackets or quotes
that does not end in a (top-level) colon, joining the segments returned by
the splitter with `":"` reproduces the token exactly. -/
theorem claim3_split_roundtrip (t : List Char)
    (h1 : innerColonFree initState t = true) (h2 : t.getLast? ≠ some ':') :
    joinColon (splitVariantsL t) = t := by
  cases t with
  | nil => rfl
  | cons c cs =>
    have := innerColonFree_join (c :: cs) initState h1 (by simp) h2
    rw [splitVariantsL, this]
    rfl

/-- C3 witness at `"data-[state=open]:hover:bg-red-500"`. -/
theorem claim3_witness :
    (innerColonFree initState "data-[state=open]:hover:bg-red-500".data = true ∧
      "data-[state=open]:hover:bg-red-500".data.getLast? ≠ some ':') ∧
      joinColon (splitVariantsL "data-[state=open]:hover:bg-red-500".data) =
        "data-[state=open]:hover:bg-red-500".data :=
  ⟨⟨by decide, by decide⟩,
    claim3_split_roundtrip "data-[state=open]:hover:bg-red-500".data
      (by decide) (by decide)⟩

/-- C4, counterexample: the code rewrites the right operand of *any*
logical expression, not only logical-AND: `cond || "flex"` has its right
operand rewritten, contradicting "non-AND expressions are left
untouched". -/
theorem claim4_counterexample :
    transformArg "tw-".data none
        (Expr.logicE LogicalOp.or (Expr.identE "cond".data) (Expr.strLit "flex".data)) ≠
      Expr.logicE LogicalOp.or (Expr.identE "cond".data) (Expr.strLit "flex".data) := by
  intro h
  have h1 : transformArg "tw-".data none
      (Expr.logicE LogicalOp.or (Expr.identE "cond".data) (Expr.strLit "flex".data)) =
      Expr.logicE LogicalOp.or (Expr.identE "cond".data)
        (Expr.strLit "tw-flex".data) := rfl
  rw [h1] at h
  injection h with h2 h3 h4
  injection h4 with h5
  exact absurd h5 (by decide)

/-- C4 (amended): within a recognized class-list helper call, an argument
is rewritten only in the listed shapes — a string literal, a
zero-interpolation template literal, or the right operand of a logical
expression (any of `&&`, `||`, `??`) when that operand is a string literal
or zero-interpolation template literal; the left operand and the operator
are never modified, and every other argument shape (object, array, spread,
identifier, nested call, dynamic template, any other expression) is left
untouched. -/
theorem claim4_arg_frame (p : List Char) (f : Option (List Char → Bool))
    (op op2 : LogicalOp) (l a b : Expr) (s n : List Char) (qs : List (List Char))
    (e : Expr) (es args : List Expr) (x : Expr) (k : Nat) :
    transformArg p f (Expr.strLit s) =
        Expr.strLit (transformClassesInString s p f) ∧
      transformArg p f (Expr.tplLit qs []) =
        Expr.strLit (transformClassesInString qs.flatten p f) ∧
      transformArg p f (Expr.tplLit qs (e :: es)) = Expr.tplLit qs (e :: es) ∧
      transformArg p f (Expr.logicE op l (Expr.strLit s)) =
        Expr.logicE op l (Expr.strLit (transformClassesInString s p f)) ∧
      transformArg p f (Expr.logicE op l (Expr.tplLit qs [])) =
        Expr.logicE op l (Expr.strLit (transformClassesInString qs.flatten p f)) ∧
      transformArg p f (Expr.logicE op l (Expr.tplLit qs (e :: es))) =
        Expr.logicE op l (Expr.tplLit qs (e :: es)) ∧
      (∃ r2, transformArg p f (Expr.logicE op l (Expr.logicE op2 a b)) =
        Expr.logicE op l r2 ∧ r2 = Expr.logicE op2 a b) ∧
      transformArg p f (Expr.logicE op l (Expr.identE n)) =
        Expr.logicE op l (Expr.identE n) ∧
      transformArg p f (Expr.logicE op l (Expr.callE n args)) =
        Expr.logicE op l (Expr.callE n args) ∧
      transformArg p f (Expr.logicE op l (Expr.objE args)) =
        Expr.logicE op l (Expr.objE args) ∧
      transformArg p f (Expr.logicE op l (Expr.arrE args)) =
        Expr.logicE op l (Expr.arrE args) ∧
      transformArg p f (Expr.logicE op l (Expr.spreadE x)) =
        Expr.logicE op l (Expr.spreadE x) ∧
      transformArg p f (Expr.logicE op l (Expr.otherE k)) =
        Expr.logicE op l (Expr.otherE k) ∧
      transformArg p f (Expr.objE args) = Expr.objE args ∧
      transformArg p f (Expr.arrE args) = Expr.arrE args ∧
      transformArg p f (Expr.spreadE x) = Expr.spreadE x ∧
      transformArg p f (Expr.identE n) = Expr.identE n ∧
      transformArg p f (Expr.callE n args) = Expr.callE n args ∧
      transformArg p f (Expr.otherE k) = Expr.otherE k :=
  ⟨rfl, rfl, rfl, rfl, rfl, rfl, ⟨Expr.logicE op2 a b, rfl, rfl⟩, rfl, rfl, rfl,
    rfl, rfl, rfl, rfl, rfl, rfl, rfl, rfl, rfl⟩

/-- C5: an empty token or a token containing an uppercase letter is never
classified as a utility by the default classifier, and the string rewriter
(with the default classifier) leaves it unchanged. -/
theorem claim5_uppercase_rejected (tok p : List Char)
    (h : tok = [] ∨ hasUpper tok = true) :
    isLikelyTailwindToken tok = false ∧ rewriteToken p none tok = tok := by
  have h1 : isLikelyTailwindToken tok = false := by
    rw [isLikelyTailwindToken, if_pos h]
  exact ⟨h1, by simp [rewriteToken, h1]⟩

/-- C5 witness at `"MyClass"`. -/
theorem claim5_witness :
    ("MyClass".data = [] ∨ hasUpper "MyClass".data = true) ∧
      (isLikelyTailwindToken "MyClass".data = false ∧
        rewriteToken "tw-".data none "MyClass".data = "MyClass".data) :=
  ⟨Or.inr (by decide), claim5_uppercase_rejected "MyClass".data "tw-".data
    (Or.inr (by decide))⟩

/-- C6: the splitter is total and degrades gracefully on every input,
including unbalanced brackets and unterminated quotes: the pushed segments
followed by their separator colons and the trailing buffer reconstruct the
input exactly, the segment lengths account for every character, and a
non-empty input always yields a non-empty segmentation. -/
theorem claim6_splitter_total (t : List Char) (c : Char) :
    (((svRun initState t).parts.map (fun q => q ++ [':'])).flatten ++
        (svRun initState t).buf = t) ∧
      sumLen (splitVariantsL t) + (svRun initState t).parts.length = t.length ∧
      splitVariantsL (c :: t) ≠ [] := by
  refine ⟨recon0 t, ?_, ?_⟩
  · have hr := congrArg List.length (recon0 t)
    rw [List.length_append, sumLen_flatten] at hr
    rw [splitVariantsL, sumLen_emit]
    omega
  · intro h
    have := splitVariantsL_eq_nil h
    simp at this

/-- C7: a template literal with at least one interpolated expression is
never rewritten — the static-template helper returns `null`, and both the
attribute visitor and the helper-call argument visitor (directly or as the
right operand of a logical expression) leave the node unmodified. -/
theorem claim7_dynamic_template_skip (p : List Char) (f : Option (List Char → Bool))
    (qs : List (List Char)) (e : Expr) (es : List Expr) (op : LogicalOp) (l : Expr) :
    transformTemplateLiteralIfStatic qs (e :: es) p f = none ∧
      transformAttrValue p f (AttrVal.vExpr (Expr.tplLit qs (e :: es))) =
        AttrVal.vExpr (Expr.tplLit qs (e :: es)) ∧
      transformArg p f (Expr.tplLit qs (e :: es)) = Expr.tplLit qs (e :: es) ∧
      transformArg p f (Expr.logicE op l (Expr.tplLit qs (e :: es))) =
        Expr.logicE op l (Expr.tplLit qs (e :: es)) :=
  ⟨rfl, rfl, rfl, rfl⟩

/-- C8: for every token beginning with `!` and every non-empty prefix,
the prefixer strips the leading marker before processing, applies the
prefixing body (`prefixCore`) to the remainder, and reattaches the marker
in front of the result, outside the prefix; in particular
`prefixOneToken "!bg-red-500" "tw-" = "!tw-bg-red-500"`. -/
theorem claim8_important_marker (tok p : List Char) (hp : p ≠ []) :
    prefixOneToken ('!' :: tok) p = '!' :: prefixCore tok p ∧
      prefixOneToken "!bg-red-500".data "tw-".data = "!tw-bg-red-500".data := by
  constructor
  · rw [prefixOneToken_unfold hp, stripImportant_bang (t := '!' :: tok) rfl]
    simp
  · decide

/-- C8 witness at `"bg-red-500"` with prefix `"tw-"`. -/
theorem claim8_witness :
    "tw-".data ≠ [] ∧
      (prefixOneToken ('!' :: "bg-red-500".data) "tw-".data =
          '!' :: prefixCore "bg-red-500".data "tw-".data ∧
        prefixOneToken "!bg-red-500".data "tw-".data = "!tw-bg-red-500".data) :=
  ⟨by decide, claim8_important_marker "bg-red-500".data "tw-".data (by decide)⟩

/-- C9, counterexample: with the empty prefix the string rewriter is not
the identity — it normalizes whitespace: `"a  b"` becomes `"a b"`. -/
theorem claim9_counterexample :
    transformClassesInString "a  b".data [] none ≠ "a  b".data := by
  decide

/-- C9 (amended): with the empty prefix the token prefixer returns every
token unchanged, and the string rewriter returns the whitespace-normalized
input — in particular it is the identity exactly on inputs that already
equal the single-space join of their tokens. -/
theorem claim9_empty_prefix_noop (tok input : List Char)
    (f : Option (List Char → Bool)) :
    prefixOneToken tok [] = tok ∧
      transformClassesInString input [] f = joinSpace (wsTokens input) ∧
      (input = joinSpace (wsTokens input) →
        transformClassesInString input [] f = input) := by
  refine ⟨rfl, transformClassesInString_empty_pre input f, fun h => ?_⟩
  rw [transformClassesInString_empty_pre input f, ← h]

/-- C9 witness at the already-normalized input `"a b"`. -/
theorem claim9_witness :
    "a b".data = joinSpace (wsTokens "a b".data) ∧
      transformClassesInString "a b".data [] none = "a b".data :=
  ⟨by decide,
    (claim9_empty_prefix_noop "flex".data "a b".data none).2.2 (by decide)⟩

/-- C10: when `prefixOverride` is not supplied, `buildStart` resolves the
cached prefix to the empty string — the `tailwindConfig` option is never
read — and every token then passes through the per-token rewrite
unchanged. -/
theorem claim10_no_override (o : TailwindPrefixPluginOpts)
    (f : Option (List Char → Bool)) (tok : List Char) (tc : Option (List Char))
    (h : o.prefixOverride = none) :
    buildStartPrefix (some o) = [] ∧ buildStartPrefix none = [] ∧
      buildStartPrefix (some { o with tailwindConfig := tc }) =
        buildStartPrefix (some o) ∧
      rewriteToken (buildStartPrefix (some o)) f tok = tok := by
  have h1 : buildStartPrefix (some o) = [] := by
    simp [buildStartPrefix, h]
  refine ⟨h1, rfl, rfl, ?_⟩
  rw [h1]
  exact rewriteToken_empty_pre f tok

/-- C10 witness: options with a `tailwindConfig` path but no override. -/
theorem claim10_witness :
    (TailwindPrefixPluginOpts.mk (some "tailwind.config.ts".data) none none
        none).prefixOverride = none ∧
      (buildStartPrefix (some (TailwindPrefixPluginOpts.mk
          (some "tailwind.config.ts".data) none none none)) = [] ∧
        buildStartPrefix none = [] ∧
        buildStartPrefix (some { TailwindPrefixPluginOpts.mk
            (some "tailwind.config.ts".data) none none none with
            tailwindConfig := some "other.config.ts".data }) =
          buildStartPrefix (some (TailwindPrefixPluginOpts.mk
            (some "tailwind.config.ts".data) none none none)) ∧
        rewriteToken (buildStartPrefix (some (TailwindPrefixPluginOpts.mk
            (some "tailwind.config.ts".data) none none none))) none
          "flex".data = "flex".data) :=
  ⟨rfl, claim10_no_override
    (TailwindPrefixPluginOpts.mk (some "tailwind.config.ts".data) none none none)
    none "flex".data (some "other.config.ts".data) rfl⟩
end TWP
